import Mathlib

/-!
Verification of the `text-adventure` repository: a shallow embedding of
the story-markup parser (`src/parser.rs`, a rust-peg PEG grammar) and the
tick-driven playback engine (`src/tui_client.rs`, `run_app`/`ui`), with
theorems settling the specification claims.

Strings are modelled as `List Char`; Rust's `String::len` (UTF-8 byte
length) is `byteLen`.  Fallible code returns `Option`; the two places
where the parser's action code can panic at runtime (`arg.unwrap()` on a
missing `INPUT` argument and `todo!()` on an unknown command name) are
modelled as an explicit `panicked` outcome.
-/

namespace TextAdventure

/-- `StoryEvent` from `src/lib.rs`. -/
inductive StoryEvent where
  | Text (content : List Char)
  | Input (label : List Char)
  | Pause
  | Clear
deriving DecidableEq, Repr

/-! ## Parser (src/parser.rs)

The rust-peg grammar, embedded rule by rule.  PEG semantics: ordered
choice, possessive (non-backtracking) repetition; `e?` commits to a
successful inner match; `x ** sep` backtracks a separator whose
following item fails.  Action blocks run as soon as a rule's pattern
matches, so `todo!()` / `unwrap()` panics fire during parsing. -/

/-- `rule _ = [' ' | '\t']+` : inline whitespace characters. -/
def isInlineWs (c : Char) : Bool := c = ' ' || c = '\t'

/-- Characters accepted by `['A'..='Z']+` (the command name). -/
def isUpperAZ (c : Char) : Bool := 'A' ≤ c && c ≤ 'Z'

/-- Characters an argument may contain: `(!("\n"/_) [_])` — anything but
a newline or inline whitespace. -/
def isArgChar (c : Char) : Bool := !(c = '\n' || isInlineWs c)

/-- `rule arg() = ":" _? arg:$((!("\n"/_) [_])+)` : a colon, optional
inline whitespace, then a nonempty run of argument characters.
Returns the argument and the rest of the input, or `none` on failure. -/
def argP (s : List Char) : Option (List Char × List Char) :=
  match s with
  | [] => none
  | c :: rest =>
    if c = ':' then
      let r1 := rest.dropWhile isInlineWs
      let a := r1.takeWhile isArgChar
      let r2 := r1.dropWhile isArgChar
      if a = [] then none else some (a, r2)
    else none

/-- Outcome of the `command` rule: a parsed event with the remaining
input, a runtime panic in the action block, or a parse failure. -/
inductive CmdOut where
  | ev (e : StoryEvent) (rest : List Char)
  | panicked
  | failed
deriving DecidableEq, Repr

/-- The action block of the `command` rule (`match cmd { ... }`):
`PAUSE`/`CLEAR` ignore the argument, `INPUT` calls `arg.unwrap()`
(panicking when the argument is absent), and every other name hits
`todo!()` (an unconditional panic).  `r3` is the input remaining after
the whole `command` pattern. -/
def commandAction (cmd : List Char) (argOpt : Option (List Char))
    (r3 : List Char) : CmdOut :=
  if cmd = "PAUSE".toList then .ev .Pause r3
  else if cmd = "CLEAR".toList then .ev .Clear r3
  else if cmd = "INPUT".toList then
    match argOpt with
    | some a => .ev (.Input a) r3
    | none => .panicked
  else .panicked

/-- `rule command() = "+" cmd:$(['A'..='Z']+) _? arg:arg()? { ... }`:
a `+`, a nonempty run of uppercase letters, optional inline whitespace,
an optional argument, then the action block. -/
def commandP (s : List Char) : CmdOut :=
  match s with
  | [] => .failed
  | c :: rest =>
    if c = '+' then
      if rest.takeWhile isUpperAZ = [] then .failed
      else
        let r2 := (rest.dropWhile isUpperAZ).dropWhile isInlineWs
        match argP r2 with
        | some (a, r) => commandAction (rest.takeWhile isUpperAZ) (some a) r
        | none => commandAction (rest.takeWhile isUpperAZ) none r2
    else .failed

/-- The character consumer of `rule text() = $((!"\n+" [_])+)`:
consume characters until the two-character sequence `"\n+"` is next (or
the input ends).  Returns (consumed, rest). -/
def textChars : List Char → List Char × List Char
  | [] => ([], [])
  | c :: rest =>
    if c = '\n' ∧ rest.head? = some '+' then ([], c :: rest)
    else
      let p := textChars rest
      (c :: p.1, p.2)

/-- Result of a parsing stage: success with remaining input, parse
failure, or runtime panic inside an action block. -/
inductive PRes (α : Type) where
  | ok (a : α) (rest : List Char)
  | failed
  | panicked
deriving DecidableEq, Repr

/-- `rule event() = command() / text()` (ordered choice; a command
panic aborts the whole parse before `text` is tried). -/
def eventP (s : List Char) : PRes StoryEvent :=
  match commandP s with
  | .ev e r => .ok e r
  | .panicked => .panicked
  | .failed =>
    let p := textChars s
    if p.1 = [] then .failed else .ok (.Text p.1) p.2

/-- The separator `"\n"+` : one or more newlines, greedy. -/
def sepP (s : List Char) : Option (List Char) :=
  match s with
  | [] => none
  | c :: rest =>
    if c = '\n' then some (rest.dropWhile (fun c => c = '\n')) else none

/-- The `(sep event)*` tail of `event() ** ("\n"+)`, with the rust-peg
behaviour of backtracking a separator whose following event fails.
`fuel` bounds recursion depth; every iteration consumes at least two
characters, so any `fuel` larger than the input length is enough (the
exhaustion arm is unreachable then). -/
def restEvents : Nat → List Char → PRes (List StoryEvent)
  | 0, _ => .panicked
  | fuel + 1, r =>
    match sepP r with
    | none => .ok [] r
    | some u =>
      match eventP u with
      | .failed => .ok [] r
      | .panicked => .panicked
      | .ok e2 r2 =>
        match restEvents fuel r2 with
        | .ok l rest => .ok (e2 :: l) rest
        | .failed => .failed
        | .panicked => .panicked

/-- `l:(event() ** ("\n"+))` : zero or more events separated by
newline runs. -/
def eventsP (s : List Char) : PRes (List StoryEvent) :=
  match eventP s with
  | .failed => .ok [] s
  | .panicked => .panicked
  | .ok e r =>
    match restEvents s.length r with
    | .ok l rest => .ok (e :: l) rest
    | .failed => .failed
    | .panicked => .panicked

/-- Characters accepted by the trailing rule `(_/"\n")*`: inline
whitespace and newlines. -/
def wsnlChar (c : Char) : Bool := isInlineWs c || c = '\n'

/-- The trailing `(_/"\n")*` of the `story` rule: greedily consumes any
run of inline whitespace and newlines. -/
def trailingP (s : List Char) : List Char :=
  s.dropWhile wsnlChar

/-- Overall result of `story_parser::story`: the event list, a
positioned parse error (position elided — no claim concerns it), or a
runtime panic. -/
inductive ParseResult where
  | ok (events : List StoryEvent)
  | err
  | panicked
deriving DecidableEq, Repr

/-- `pub rule story() = l:(event() ** ("\n"+)) (_/"\n")* { l }`.
As a `pub` rule it must consume the entire input; leftover input after
the trailing whitespace is a parse error. -/
def story (s : List Char) : ParseResult :=
  match eventsP s with
  | .ok l rest => if trailingP rest = [] then .ok l else .err
  | .failed => .err
  | .panicked => .panicked

/-! ## Playback engine (src/tui_client.rs, `run_app` / `ui`)

One loop iteration ("tick") performs, in order: a phase-transition step
(`phaseStep`, the `match app_ui.update` block), a render
(`uiView`, the `ui` function), and a non-blocking poll of at most one
key event (`handleKey`, the `event::poll`/`event::read` block).
`Instant::now()` is modelled by passing the current time (in
milliseconds) into each tick; `elapsed()` is `now - response_time`. -/

/-- Byte length of a string (Rust `String::len`). -/
def byteLen (l : List Char) : Nat := l.foldr (fun c acc => c.utf8Size + acc) 0

/-- `enum InputMode` from tui_client.rs (`Disabled`, `Input`, `Pause`);
the spec calls these modes `Disabled`, `AwaitingInput`, `AwaitingAnyKey`. -/
inductive InputMode where
  | Disabled
  | Input
  | Pause
deriving DecidableEq, Repr

/-- `enum UpdateState` from tui_client.rs; the spec's phases
`Update`, `AwaitingExternalEvent`, `CommittingInput`, `Responding`. -/
inductive UpdateState where
  | Update
  | Wait
  | HandleInput
  | Responding
deriving DecidableEq, Repr

/-- `struct AppUi` from tui_client.rs.  `response_time` is the absolute
time (ms) recorded when the current reveal started. -/
structure AppUi where
  input : List Char
  input_mode : InputMode
  output : List (List Char)
  current_response : List Char
  response_time : Nat
  response_progress : Nat
  update : UpdateState
  label : List Char
deriving DecidableEq, Repr

/-- `struct AppData` from lib.rs: the event queue and the game store.
The `HashMap` is modelled as an association list where `insertStore`
prepends and `lookupStore` finds the first match, which preserves the
map's insert-overwrites semantics. -/
structure AppData where
  story : List StoryEvent
  game_store : List (List Char × List Char)
deriving DecidableEq, Repr

/-- The whole engine state handled by `run_app`. -/
structure App where
  ui : AppUi
  data : AppData
deriving DecidableEq, Repr

/-- `HashMap::insert` (newest binding shadows older ones). -/
def insertStore (k v : List Char) (m : List (List Char × List Char)) :
    List (List Char × List Char) :=
  (k, v) :: m

/-- `HashMap::get`. -/
def lookupStore : List (List Char × List Char) → List Char → Option (List Char)
  | [], _ => none
  | (k', v) :: rest, k => if k' = k then some v else lookupStore rest k

/-- `AppUi::default()` (with `response_time` = the `Instant::now()` of
construction) paired with a story and an empty game store. -/
def initApp (events : List StoryEvent) (now0 : Nat) : App :=
  { ui := { input := [], input_mode := .Disabled, output := [],
            current_response := [], response_time := now0,
            response_progress := 0, update := .Update, label := [] },
    data := { story := events, game_store := [] } }

/-- The `match app_ui.update` block at the top of the loop body:
one phase-transition step.  `none` means `run_app` returned
(`UpdateState::Update` with an empty story queue).  Note that the
`StoryEvent::Input(_)` arm discards the event's label and never writes
`app_ui.label`, and the `Clear` arm leaves `update` at `Update`. -/
def phaseStep (now : Nat) (s : App) : Option App :=
  match s.ui.update with
  | .Update =>
    match s.data.story with
    | [] => none
    | e :: rest =>
      match e with
      | .Text t =>
        some { s with
          data := { s.data with story := rest },
          ui := { s.ui with
            current_response := t
            response_time := now
            input_mode := .Disabled
            update := .Responding } }
      | .Input _ =>
        some { s with
          data := { s.data with story := rest },
          ui := { s.ui with
            input_mode := .Input
            update := .Wait } }
      | .Pause =>
        some { s with
          data := { s.data with story := rest },
          ui := { s.ui with
            input_mode := .Pause
            update := .Wait } }
      | .Clear =>
        some { s with
          data := { s.data with story := rest },
          ui := { s.ui with output := [] } }
  | .HandleInput =>
    some { s with
      data := { s.data with
        game_store := insertStore s.ui.label s.ui.input s.data.game_store },
      ui := { s.ui with
        label := []
        input := []
        update := .Update } }
  | .Responding =>
    let progress := (now - s.ui.response_time) / 10
    if byteLen s.ui.current_response ≤ progress then
      some { s with ui := { s.ui with
        output := s.ui.output ++ [s.ui.current_response]
        current_response := []
        update := .Update
        response_progress := 0 } }
    else
      some { s with ui := { s.ui with response_progress := progress } }
  | .Wait => some s

/-- The classified key events the loop consumes. -/
inductive KeyCode where
  | char (c : Char)
  | enter
  | backspace
  | home
  | other
deriving DecidableEq, Repr

/-- The key-handling block of the loop body.  `KeyCode::Home` is the
quit key, checked before any mode-specific handling; `none` means the
loop returned. -/
def handleKey (k : KeyCode) (s : App) : Option App :=
  match k with
  | .home => none
  | _ =>
    match s.ui.input_mode with
    | .Input =>
      match k with
      | .enter =>
        some { s with ui := { s.ui with
          input_mode := .Disabled
          update := .HandleInput } }
      | .char c =>
        some { s with ui := { s.ui with input := s.ui.input ++ [c] } }
      | .backspace =>
        some { s with ui := { s.ui with input := s.ui.input.dropLast } }
      | _ => some s
    | .Disabled => some s
    | .Pause => some { s with ui := { s.ui with update := .Update } }

/-- Rust byte slicing `&str[0..p]` on the chars of a string: `some`
of the sliced prefix when `p` is a valid char boundary within bounds,
`none` when the slice would panic. -/
def takeBytes : List Char → Nat → Option (List Char)
  | _, 0 => some []
  | [], _ + 1 => none
  | c :: rest, p + 1 =>
    if c.utf8Size ≤ p + 1 then
      (takeBytes rest (p + 1 - c.utf8Size)).map (fun t => c :: t)
    else none

/-- What the `ui` function displays each ticks: the mode, the input
line, and the output lines chained with the revealed slice
`&app.current_response[0..app.response_progress]`.  `none` models the
render panicking on an invalid slice. -/
structure RenderView where
  mode : InputMode
  inputLine : List Char
  lines : List (List Char)
deriving DecidableEq, Repr

/-- The `ui` render function as a view of the engine state. -/
def uiView (s : App) : Option RenderView :=
  (takeBytes s.ui.current_response s.ui.response_progress).map
    (fun cur => { mode := s.ui.input_mode, inputLine := s.ui.input,
                  lines := s.ui.output ++ [cur] })

/-- How a tick ends: the loop continues with a new state, `run_app`
returned because the story ran out (`finished`), or the quit key ended
it (`quit`). -/
inductive TickOut where
  | next (s : App)
  | finished
  | quit
deriving DecidableEq, Repr

/-- One full iteration of the `run_app` loop: phase step, then render,
then at most one polled key.  Returns the view drawn during this tick
(`none` if the loop returned before reaching `terminal.draw`) together
with the outcome. -/
def tickFull (now : Nat) (k : Option KeyCode) (s : App) :
    Option (Option RenderView) × TickOut :=
  match phaseStep now s with
  | none => (none, .finished)
  | some s1 =>
    let v := uiView s1
    match k with
    | none => (some v, .next s1)
    | some kc =>
      match handleKey kc s1 with
      | none => (some v, .quit)
      | some s2 => (some v, .next s2)

/-- The state outcome of one tick. -/
def tick (now : Nat) (k : Option KeyCode) (s : App) : TickOut :=
  (tickFull now k s).2

/-- Outcome of running a sequence of ticks. -/
inductive RunRes where
  | running (s : App)
  | finished
  | quit
deriving DecidableEq, Repr

/-- Drive the loop through a list of ticks, each given as
(time in ms, polled key if any). -/
def runTicks : List (Nat × Option KeyCode) → App → RunRes
  | [], s => .running s
  | (n, k) :: ts, s =>
    match tick n k s with
    | .next s' => runTicks ts s'
    | .finished => .finished
    | .quit => .quit

/-- Iterate only the phase-transition step over a list of tick times
(no keys polled): the engine's autonomous behaviour. -/
def stepMany : List Nat → App → Option App
  | [], s => some s
  | n :: ns, s =>
    match phaseStep n s with
    | none => none
    | some s' => stepMany ns s'

/-! ## Concrete inputs used by the claim theorems -/

/-- The story of the spec's engine scenario: `[Text("Hi"), Input("name")]`. -/
def hiNameStory : List StoryEvent := [.Text "Hi".toList, .Input "name".toList]

/-- The engine run of the spec's scenario: two ticks to reveal and
commit `"Hi"` (per-character duration is 10 ms, so at 20 ms the
2-byte text is complete), one tick to dequeue the `Input` event, four
key ticks typing `B`, `o`, `b`, Enter, and one tick for the
`HandleInput` phase. -/
def hiNameTrace : List (Nat × Option KeyCode) :=
  [(0, none), (20, none), (20, none),
   (20, some (.char 'B')), (20, some (.char 'o')), (20, some (.char 'b')),
   (20, some .enter), (20, none)]

/-- A state in the `Update` phase about to dequeue a `Clear`, with a
nonempty output log and a `Text` event queued behind the `Clear`. -/
def clearState : App :=
  { ui := { input := [], input_mode := .Disabled, output := ["old".toList],
            current_response := [], response_time := 0,
            response_progress := 0, update := .Update, label := [] },
    data := { story := [.Clear, .Text ['x']], game_store := [] } }

/-- A state in the `Responding` phase revealing the 2-byte text `"Hi"`
whose reveal started at time 0. -/
def respondingState : App :=
  { ui := { input := [], input_mode := .Disabled, output := [],
            current_response := "Hi".toList, response_time := 0,
            response_progress := 0, update := .Responding, label := [] },
    data := { story := [], game_store := [] } }

/-- An event produced by the `command` rule (not by `text`). -/
def isCmdEvent : StoryEvent → Prop
  | .Text _ => False
  | _ => True

/-- The revealed-character count after driving only the phase step
through a list of tick times. -/
def progressAfter (ts : List Nat) (s : App) : Option Nat :=
  (stepMany ts s).map (fun s' => s'.ui.response_progress)

/-- The output log after one phase step. -/
def outputAfterStep (now : Nat) (s : App) : Option (List (List Char)) :=
  (phaseStep now s).map (fun s' => s'.ui.output)

/-- The state after the tick `(0, Enter)` from `initApp [Pause] 0`:
the `Pause` event was dequeued and the key satisfied the wait. -/
def pauseTicked : App :=
  { ui := { input := [], input_mode := .Pause, output := [],
            current_response := [], response_time := 0,
            response_progress := 0, update := .Update, label := [] },
    data := { story := [], game_store := [] } }

/-! ## Claim theorems -/

/-- C2 (code bug): parsing `"+INPUT"` does not return a
`MissingArgument` error value — the `command` rule's action block calls
`arg.unwrap()` on `None` and panics at runtime.  With an argument
present the same path succeeds. -/
theorem input_missing_argument_panics :
    story "+INPUT".toList = .panicked ∧
    story "+INPUT:name".toList = .ok [.Input "name".toList] := by
  constructor <;> rfl

/-- C3 (code bug): parsing `"+FROB"` does not return an
`UnknownCommand("FROB")` error value — the `command` rule's action
block hits `todo!()` for every command name other than `PAUSE`,
`CLEAR` and `INPUT`, and panics at runtime. -/
theorem unknown_command_panics :
    story "+FROB".toList = .panicked ∧ story "+FROB".toList ≠ .err := by
  exact ⟨rfl, by decide⟩

/-- C7 (confirmed): `parse("Line one\n+CLEAR\nLine two")` is exactly
`[Text("Line one"), Clear, Text("Line two")]` — text stops before a
newline immediately followed by `+`, and the newline after the command
separates it from the following text. -/
theorem parse_clear_document :
    story "Line one\n+CLEAR\nLine two".toList =
      .ok [.Text "Line one".toList, .Clear, .Text "Line two".toList] := by
  rfl

/-- C1 (code bug): running the engine on `[Text("Hi"), Input("name")]`
makes the output log exactly `["Hi"]` with mode `AwaitingInput`
(`InputMode::Input`), and after keys `B`,`o`,`b`,Enter the buffer is
empty and the engine finishes — but the committed input is stored
under the empty label `""`, not under `"name"`: the
`StoryEvent::Input(_)` arm of `run_app` discards the event's label and
never assigns `app_ui.label`. -/
theorem input_label_stored_empty :
    (∃ s, runTicks [(0, none), (20, none), (20, none)] (initApp hiNameStory 0)
        = .running s ∧
      s.ui.output = ["Hi".toList] ∧ s.ui.input_mode = .Input) ∧
    (∃ s, runTicks hiNameTrace (initApp hiNameStory 0) = .running s ∧
      s.ui.input = [] ∧
      s.data.game_store = [([], "Bob".toList)] ∧
      lookupStore s.data.game_store "name".toList = none ∧
      lookupStore s.data.game_store [] = some "Bob".toList) ∧
    runTicks (hiNameTrace ++ [(20, none)]) (initApp hiNameStory 0) = .finished := by
  refine ⟨⟨_, rfl, rfl, rfl⟩, ⟨_, rfl, rfl, rfl, rfl, rfl⟩, rfl⟩

/-- C6 (code bug): after dequeuing `Input("name")` the mode is
`AwaitingInput` (`InputMode::Input`) but the pending label is still the
empty default, not `"name"` — `run_app` never assigns `app_ui.label`,
so the claimed invariant "pending label is set iff mode is
`AwaitingInput`" fails in this reachable state. -/
theorem pending_label_never_set :
    ∃ s, runTicks [(0, none)] (initApp [.Input "name".toList] 0) = .running s ∧
      s.ui.input_mode = .Input ∧ s.ui.label = [] ∧
      s.ui.label ≠ "name".toList := by
  refine ⟨_, rfl, rfl, rfl, by decide⟩

/-- C10 (code bug): with the story `[Text("é")]` (a single 2-byte
UTF-8 character), the tick at 10 ms elapsed sets
`response_progress = 1`, which is inside the character — so the
renderer's slice `&app.current_response[0..1]` is not on a char
boundary and panics (`uiView` is `none`). -/
theorem reveal_slice_panics_on_multibyte :
    ∃ s, runTicks [(0, none), (10, none)] (initApp [.Text ['é']] 0)
        = .running s ∧
      s.ui.current_response = ['é'] ∧
      byteLen s.ui.current_response = 2 ∧
      s.ui.response_progress = 1 ∧
      uiView s = none := by
  refine ⟨_, rfl, rfl, rfl, rfl, rfl⟩

/-- C5 counterexample: dequeuing a `Clear` consumes a full tick — the
tick that processes `Clear` completes (including its render) with the
next event `Text("x")` still queued, so the engine does not continue
to the next event within the same tick. -/
theorem clear_consumes_tick_cex :
    ∃ s, tick 0 none clearState = .next s ∧
      s.data.story = [.Text ['x']] ∧
      s.ui.update = .Update ∧
      s.ui.output = [] ∧
      (tickFull 0 none clearState).1 = some (uiView s) := by
  refine ⟨_, rfl, rfl, rfl, rfl, rfl⟩

/-! ### List helper lemmas -/

theorem dropWhile_app_pos (p : Char → Bool) (s w : List Char)
    (h : s.dropWhile p ≠ []) :
    (s ++ w).dropWhile p = s.dropWhile p ++ w := by
  induction s with
  | nil => simp at h
  | cons c cs ih =>
    by_cases hp : p c
    · simp only [List.dropWhile_cons, hp, if_true, List.cons_append] at h ⊢
      exact ih h
    · simp [List.dropWhile_cons, hp]

theorem takeWhile_app_pos (p : Char → Bool) (s w : List Char)
    (h : s.dropWhile p ≠ []) :
    (s ++ w).takeWhile p = s.takeWhile p := by
  induction s with
  | nil => simp at h
  | cons c cs ih =>
    by_cases hp : p c
    · simp only [List.dropWhile_cons, hp, if_true] at h
      simp [List.takeWhile_cons, hp, ih h]
    · simp [List.takeWhile_cons, hp]

theorem dropWhile_app_nil (p : Char → Bool) (s w : List Char)
    (h : s.dropWhile p = []) :
    (s ++ w).dropWhile p = w.dropWhile p := by
  induction s with
  | nil => rfl
  | cons c cs ih =>
    by_cases hp : p c
    · simp only [List.dropWhile_cons, hp, if_true] at h
      simp [List.dropWhile_cons, hp, ih h]
    · simp [List.dropWhile_cons, hp] at h

theorem takeWhile_app_nil (p : Char → Bool) (s w : List Char)
    (h : s.dropWhile p = []) :
    (s ++ w).takeWhile p = s ++ w.takeWhile p := by
  induction s with
  | nil => rfl
  | cons c cs ih =>
    by_cases hp : p c
    · simp only [List.dropWhile_cons, hp, if_true] at h
      simp [List.takeWhile_cons, hp, ih h]
    · simp [List.dropWhile_cons, hp] at h

theorem takeWhile_app_nil_of_ne (p : Char → Bool) (x w : List Char)
    (hx : x.takeWhile p = []) (hne : x ≠ []) :
    (x ++ w).takeWhile p = [] := by
  cases x with
  | nil => exact absurd rfl hne
  | cons c cs =>
    by_cases hp : p c
    · rw [List.takeWhile_cons, if_pos hp] at hx
      exact absurd hx (by simp)
    · rw [List.cons_append, List.takeWhile_cons, if_neg hp]

theorem takeWhile_none (p : Char → Bool) (w : List Char)
    (h : ∀ c ∈ w, p c = false) : w.takeWhile p = [] := by
  cases w with
  | nil => rfl
  | cons c cs =>
    simp [List.takeWhile_cons, h c (List.mem_cons_self c cs)]

theorem dropWhile_none_self (p : Char → Bool) (w : List Char)
    (h : ∀ c ∈ w, p c = false) : w.dropWhile p = w := by
  cases w with
  | nil => rfl
  | cons c cs =>
    simp [List.dropWhile_cons, h c (List.mem_cons_self c cs)]

theorem length_dropWhile_le' (p : Char → Bool) (s : List Char) :
    (s.dropWhile p).length ≤ s.length := by
  induction s with
  | nil => exact Nat.le_refl _
  | cons c cs ih =>
    by_cases hp : p c
    · simp only [List.dropWhile_cons, hp, if_true]
      exact Nat.le_trans ih (Nat.le_succ _)
    · simp [List.dropWhile_cons, hp]

theorem mem_dropWhile (p : Char → Bool) (s : List Char) (c : Char)
    (h : c ∈ s.dropWhile p) : c ∈ s := by
  induction s with
  | nil => simp at h
  | cons d cs ih =>
    by_cases hp : p d
    · simp only [List.dropWhile_cons, hp, if_true] at h
      exact List.mem_cons_of_mem d (ih h)
    · simpa [List.dropWhile_cons, hp] using h

/-! ### Parser helper lemmas -/

theorem textChars_split (s : List Char) :
    s = (textChars s).1 ++ (textChars s).2 := by
  induction s with
  | nil => rfl
  | cons c cs ih =>
    rw [textChars]
    split
    · rfl
    · simpa using ih

theorem textChars_append (s w : List Char) (h : (textChars s).2 ≠ []) :
    textChars (s ++ w) = ((textChars s).1, (textChars s).2 ++ w) := by
  induction s with
  | nil => simp [textChars] at h
  | cons c cs ih =>
    by_cases hc : c = '\n' ∧ cs.head? = some '+'
    · have hcs : cs ≠ [] := by
        intro hnil
        rw [hnil] at hc
        exact absurd hc.2 (by simp)
      have hc' : c = '\n' ∧ (cs ++ w).head? = some '+' :=
        ⟨hc.1, by rw [List.head?_append_of_ne_nil cs hcs]; exact hc.2⟩
      rw [List.cons_append, textChars, if_pos hc', textChars, if_pos hc]
      simp
    · have hrw : textChars (c :: cs) =
          (c :: (textChars cs).1, (textChars cs).2) := by
        rw [textChars, if_neg hc]
      rw [hrw] at h ⊢
      have h2 : (textChars cs).2 ≠ [] := h
      have hcs : cs ≠ [] := by
        intro hnil
        rw [hnil] at h2
        exact h2 rfl
      have hc' : ¬(c = '\n' ∧ (cs ++ w).head? = some '+') := by
        intro hcon
        exact hc ⟨hcon.1, by
          rw [List.head?_append_of_ne_nil cs hcs] at hcon
          exact hcon.2⟩
      rw [List.cons_append, textChars, if_neg hc']
      simp [ih h2]

theorem textChars_all (s : List Char) (h : ∀ c ∈ s, c ≠ '+') :
    textChars s = (s, []) := by
  induction s with
  | nil => rfl
  | cons c cs ih =>
    rw [textChars]
    have hc : ¬(c = '\n' ∧ cs.head? = some '+') := by
      rintro ⟨-, h2⟩
      cases cs with
      | nil => simp at h2
      | cons d ds =>
        simp only [List.head?_cons, Option.some_inj] at h2
        exact h d (List.mem_cons_of_mem c (List.mem_cons_self d ds)) h2
    rw [if_neg hc]
    simp [ih (fun d hd => h d (List.mem_cons_of_mem c hd))]

theorem commandAction_rest (cmd : List Char) (argOpt : Option (List Char))
    (r3 : List Char) (e : StoryEvent) (r : List Char)
    (h : commandAction cmd argOpt r3 = .ev e r) :
    r = r3 ∧ ∀ v, commandAction cmd argOpt v = .ev e v := by
  unfold commandAction at h ⊢
  split at h
  · injection h with h1 h2
    subst h1; subst h2
    exact ⟨rfl, fun v => by simp_all⟩
  · split at h
    · injection h with h1 h2
      subst h1; subst h2
      simp_all
    · split at h
      · cases argOpt with
        | none => exact absurd h (by simp)
        | some a =>
          simp only [] at h
          injection h with h1 h2
          subst h1; subst h2
          simp_all
      · exact absurd h (by simp)

theorem argP_append_pos (s w a r : List Char)
    (h : argP s = some (a, r)) (hr : r ≠ []) :
    argP (s ++ w) = some (a, r ++ w) := by
  cases s with
  | nil => simp [argP] at h
  | cons c rest =>
    rw [argP] at h
    by_cases hc : c = ':'
    · rw [if_pos hc] at h
      simp only [] at h
      split at h
      · exact absurd h (by simp)
      next hne =>
        injection h with h
        injection h with ha hr2
        subst ha; subst hr2
        have hdne : (rest.dropWhile isInlineWs).dropWhile isArgChar ≠ [] := hr
        have hwsne : rest.dropWhile isInlineWs ≠ [] := by
          intro hnil
          rw [hnil] at hne
          exact hne rfl
        rw [List.cons_append, argP, if_pos hc]
        simp only []
        rw [dropWhile_app_pos _ _ _ hwsne,
          takeWhile_app_pos _ _ _ hdne, dropWhile_app_pos _ _ _ hdne,
          if_neg hne]
    · rw [if_neg hc] at h
      exact absurd h (by simp)

theorem argP_append_end (s w a : List Char)
    (h : argP s = some (a, []))
    (hw : ∀ c ∈ w, c = '\n') :
    argP (s ++ w) = some (a, w) := by
  have hwa : ∀ c ∈ w, isArgChar c = false := by
    intro c hc
    rw [hw c hc]
    decide
  cases s with
  | nil => simp [argP] at h
  | cons c rest =>
    rw [argP] at h
    by_cases hc : c = ':'
    · rw [if_pos hc] at h
      simp only [] at h
      split at h
      · exact absurd h (by simp)
      next hne =>
        injection h with h
        injection h with ha hr2
        subst ha
        have hwsne : rest.dropWhile isInlineWs ≠ [] := by
          intro hnil
          rw [hnil] at hne
          exact hne rfl
        rw [List.cons_append, argP, if_pos hc]
        simp only []
        rw [dropWhile_app_pos _ _ _ hwsne,
          takeWhile_app_nil _ _ _ hr2, dropWhile_app_nil _ _ _ hr2,
          takeWhile_none _ _ hwa, dropWhile_none_self _ _ hwa,
          List.append_nil]
        have htw : List.takeWhile isArgChar (List.dropWhile isInlineWs rest) =
            List.dropWhile isInlineWs rest := by
          have hsplit := List.takeWhile_append_dropWhile (p := isArgChar)
            (l := List.dropWhile isInlineWs rest)
          rw [hr2, List.append_nil] at hsplit
          exact hsplit
        rw [if_neg hwsne, htw]
    · rw [if_neg hc] at h
      exact absurd h (by simp)

theorem argP_none_append (s w : List Char)
    (h : argP s = none)
    (hw : ∀ c ∈ w, c = '\n') :
    argP (s ++ w) = none := by
  have hwa : ∀ c ∈ w, isArgChar c = false := by
    intro c hc
    rw [hw c hc]
    decide
  have hwws : ∀ c ∈ w, isInlineWs c = false := by
    intro c hc
    rw [hw c hc]
    decide
  cases s with
  | nil =>
    rw [List.nil_append]
    cases w with
    | nil => rfl
    | cons c rest =>
      rw [argP, if_neg (by rw [hw c (List.mem_cons_self c rest)]; decide)]
  | cons c rest =>
    rw [argP] at h
    by_cases hc : c = ':'
    · rw [if_pos hc] at h
      simp only [] at h
      split at h
      next hta =>
        rw [List.cons_append, argP, if_pos hc]
        simp only []
        by_cases hws : rest.dropWhile isInlineWs = []
        · rw [dropWhile_app_nil _ _ _ hws, dropWhile_none_self _ _ hwws,
            takeWhile_none _ _ hwa, if_pos rfl]
        · rw [dropWhile_app_pos _ _ _ hws,
            takeWhile_app_nil_of_ne _ _ _ hta hws, if_pos rfl]
      · exact absurd h (by simp)
    · rw [if_neg hc] at h
      rw [List.cons_append, argP, if_neg hc]

theorem commandAction_ne_failed (cmd : List Char) (argOpt : Option (List Char))
    (r3 : List Char) : commandAction cmd argOpt r3 ≠ .failed := by
  unfold commandAction
  split
  · simp
  · split
    · simp
    · split
      · cases argOpt <;> simp
      · simp

theorem commandP_append_pos (s w : List Char) (e : StoryEvent) (r : List Char)
    (hw : ∀ c ∈ w, c = '\n')
    (h : commandP s = .ev e r) (hr : r ≠ []) :
    commandP (s ++ w) = .ev e (r ++ w) := by
  cases s with
  | nil => simp [commandP] at h
  | cons c rest =>
    rw [commandP] at h
    by_cases hc : c = '+'
    · rw [if_pos hc] at h
      split at h
      · exact absurd h (by simp)
      next hcne =>
        simp only [] at h
        rw [List.cons_append, commandP, if_pos hc]
        cases ha : argP ((rest.dropWhile isUpperAZ).dropWhile isInlineWs) with
        | some ar =>
          obtain ⟨a0, r0⟩ := ar
          rw [ha] at h
          obtain ⟨hre, hact⟩ := commandAction_rest _ _ _ _ _ h
          subst hre
          have hr2ne : (rest.dropWhile isUpperAZ).dropWhile isInlineWs ≠ [] := by
            intro hnil
            rw [hnil] at ha
            exact absurd ha (by simp [argP])
          have hru : rest.dropWhile isUpperAZ ≠ [] := by
            intro hnil
            rw [hnil] at hr2ne
            exact hr2ne rfl
          rw [takeWhile_app_pos _ _ _ hru, dropWhile_app_pos _ _ _ hru,
            dropWhile_app_pos _ _ _ hr2ne, if_neg hcne]
          simp only []
          rw [argP_append_pos _ w _ _ ha hr]
          exact hact (r ++ w)
        | none =>
          rw [ha] at h
          obtain ⟨hre, hact⟩ := commandAction_rest _ _ _ _ _ h
          subst hre
          have hr2ne : (rest.dropWhile isUpperAZ).dropWhile isInlineWs ≠ [] := hr
          have hru : rest.dropWhile isUpperAZ ≠ [] := by
            intro hnil
            rw [hnil] at hr2ne
            exact hr2ne rfl
          rw [takeWhile_app_pos _ _ _ hru, dropWhile_app_pos _ _ _ hru,
            dropWhile_app_pos _ _ _ hr2ne, if_neg hcne]
          simp only []
          rw [argP_none_append _ w ha hw]
          exact hact _
    · rw [if_neg hc] at h
      exact absurd h (by simp)

theorem commandP_append_end (s w : List Char) (e : StoryEvent)
    (hw : ∀ c ∈ w, c = '\n')
    (h : commandP s = .ev e []) :
    commandP (s ++ w) = .ev e w := by
  have hwu : ∀ c ∈ w, isUpperAZ c = false := by
    intro c hc
    rw [hw c hc]
    decide
  have hwws : ∀ c ∈ w, isInlineWs c = false := by
    intro c hc
    rw [hw c hc]
    decide
  have hargw : argP w = none := by
    have hres := argP_none_append [] w rfl hw
    rwa [List.nil_append] at hres
  cases s with
  | nil => simp [commandP] at h
  | cons c rest =>
    rw [commandP] at h
    by_cases hc : c = '+'
    · rw [if_pos hc] at h
      split at h
      · exact absurd h (by simp)
      next hcne =>
        simp only [] at h
        rw [List.cons_append, commandP, if_pos hc]
        cases ha : argP ((rest.dropWhile isUpperAZ).dropWhile isInlineWs) with
        | some ar =>
          obtain ⟨a0, r0⟩ := ar
          rw [ha] at h
          obtain ⟨hre, hact⟩ := commandAction_rest _ _ _ _ _ h
          have hr0 : r0 = [] := hre.symm
          subst hr0
          have hr2ne : (rest.dropWhile isUpperAZ).dropWhile isInlineWs ≠ [] := by
            intro hnil
            rw [hnil] at ha
            exact absurd ha (by simp [argP])
          have hru : rest.dropWhile isUpperAZ ≠ [] := by
            intro hnil
            rw [hnil] at hr2ne
            exact hr2ne rfl
          rw [takeWhile_app_pos _ _ _ hru, dropWhile_app_pos _ _ _ hru,
            dropWhile_app_pos _ _ _ hr2ne, if_neg hcne]
          simp only []
          rw [argP_append_end _ w _ ha hw]
          exact hact w
        | none =>
          rw [ha] at h
          obtain ⟨hre, hact⟩ := commandAction_rest _ _ _ _ _ h
          have hr2 : (rest.dropWhile isUpperAZ).dropWhile isInlineWs = [] :=
            hre.symm
          by_cases hru : rest.dropWhile isUpperAZ = []
          · have htwu : rest.takeWhile isUpperAZ = rest := by
              have hsplit := List.takeWhile_append_dropWhile (p := isUpperAZ)
                (l := rest)
              rw [hru, List.append_nil] at hsplit
              exact hsplit
            have hrestne : rest ≠ [] := by
              intro hnil
              subst hnil
              exact hcne rfl
            rw [takeWhile_app_nil _ _ _ hru, takeWhile_none _ _ hwu,
              List.append_nil, dropWhile_app_nil _ _ _ hru,
              dropWhile_none_self _ _ hwu, dropWhile_none_self _ _ hwws,
              if_neg hrestne]
            simp only []
            rw [hargw]
            have hact' := hact w
            rw [htwu] at hact'
            exact hact'
          · rw [takeWhile_app_pos _ _ _ hru, dropWhile_app_pos _ _ _ hru,
              dropWhile_app_nil _ _ _ hr2, dropWhile_none_self _ _ hwws,
              if_neg hcne]
            simp only []
            rw [hargw]
            exact hact w
    · rw [if_neg hc] at h
      exact absurd h (by simp)

theorem commandP_failed_append (s w : List Char)
    (hw : ∀ c ∈ w, c = '\n') (hs : s ≠ [])
    (h : commandP s = .failed) :
    commandP (s ++ w) = .failed := by
  have hwu : ∀ c ∈ w, isUpperAZ c = false := by
    intro c hc
    rw [hw c hc]
    decide
  cases s with
  | nil => exact absurd rfl hs
  | cons c rest =>
    rw [commandP] at h
    by_cases hc : c = '+'
    · rw [if_pos hc] at h
      rw [List.cons_append, commandP, if_pos hc]
      split at h
      next hta =>
        cases hrest : rest with
        | nil =>
          subst hrest
          rw [List.nil_append, takeWhile_none _ _ hwu, if_pos rfl]
        | cons d ds =>
          subst hrest
          rw [takeWhile_app_nil_of_ne _ _ _ hta (by simp), if_pos rfl]
      next hcne =>
        simp only [] at h
        cases ha : argP ((rest.dropWhile isUpperAZ).dropWhile isInlineWs) with
        | some ar =>
          obtain ⟨a0, r0⟩ := ar
          rw [ha] at h
          exact absurd h (commandAction_ne_failed _ _ _)
        | none =>
          rw [ha] at h
          exact absurd h (commandAction_ne_failed _ _ _)
    · rw [if_neg hc] at h
      rw [List.cons_append, commandP, if_neg hc]

theorem dropWhile_all (p : Char → Bool) (w : List Char)
    (h : ∀ c ∈ w, p c = true) : w.dropWhile p = [] := by
  induction w with
  | nil => rfl
  | cons c cs ih =>
    rw [List.dropWhile_cons, if_pos (h c (List.mem_cons_self c cs))]
    exact ih (fun d hd => h d (List.mem_cons_of_mem c hd))

theorem eventP_nil : eventP [] = .failed := rfl

theorem eventP_append_pos (s w : List Char) (e : StoryEvent) (r : List Char)
    (hw : ∀ c ∈ w, c = '\n')
    (h : eventP s = .ok e r) (hr : r ≠ []) :
    eventP (s ++ w) = .ok e (r ++ w) := by
  unfold eventP at h ⊢
  cases hcp : commandP s with
  | ev e0 r0 =>
    rw [hcp] at h
    injection h with h1 h2
    subst h1; subst h2
    rw [commandP_append_pos s w e0 r0 hw hcp hr]
  | panicked => rw [hcp] at h; exact absurd h (by simp)
  | failed =>
    rw [hcp] at h
    simp only [] at h
    split at h
    · exact absurd h (by simp)
    next htne =>
      injection h with h1 h2
      subst h1; subst h2
      have hsne : s ≠ [] := by
        intro hnil
        subst hnil
        exact htne rfl
      rw [commandP_failed_append s w hw hsne hcp]
      simp only []
      rw [textChars_append s w hr]
      simp only []
      rw [if_neg htne]

theorem eventP_append_end (s w : List Char) (e : StoryEvent)
    (hw : ∀ c ∈ w, c = '\n')
    (h : eventP s = .ok e []) (hcmd : isCmdEvent e) :
    eventP (s ++ w) = .ok e w := by
  unfold eventP at h ⊢
  cases hcp : commandP s with
  | ev e0 r0 =>
    rw [hcp] at h
    injection h with h1 h2
    subst h1; subst h2
    rw [commandP_append_end s w e0 hw hcp]
  | panicked => rw [hcp] at h; exact absurd h (by simp)
  | failed =>
    rw [hcp] at h
    simp only [] at h
    split at h
    · exact absurd h (by simp)
    · injection h with h1 h2
      subst h1
      exact absurd hcmd (by simp [isCmdEvent])

theorem eventP_wsnl (u : List Char)
    (hu : ∀ c ∈ u, wsnlChar c = true) (hne : u ≠ []) :
    eventP u = .ok (.Text u) [] := by
  have hplus : ∀ c ∈ u, c ≠ '+' := by
    intro c hc he
    have hcw := hu c hc
    subst he
    exact absurd hcw (by decide)
  have hcp : commandP u = .failed := by
    cases u with
    | nil => exact absurd rfl hne
    | cons c cs =>
      rw [commandP, if_neg (hplus c (List.mem_cons_self c cs))]
  simp only [eventP, hcp, textChars_all u hplus]
  rw [if_neg hne]

theorem sepP_append_pos (r w u : List Char)
    (h : sepP r = some u) (hu : u ≠ []) :
    sepP (r ++ w) = some (u ++ w) := by
  cases r with
  | nil => simp [sepP] at h
  | cons c cs =>
    rw [sepP] at h
    by_cases hc : c = '\n'
    · rw [if_pos hc] at h
      injection h with h
      subst h
      rw [List.cons_append, sepP, if_pos hc, dropWhile_app_pos _ _ _ hu]
    · rw [if_neg hc] at h
      exact absurd h (by simp)

theorem sepP_nl (w : List Char) (hw : ∀ c ∈ w, c = '\n') :
    sepP w = none ∨ sepP w = some [] := by
  cases w with
  | nil => exact Or.inl rfl
  | cons c cs =>
    refine Or.inr ?_
    rw [sepP, if_pos (hw c (List.mem_cons_self c cs))]
    rw [dropWhile_all _ _ (fun d hd => by
      rw [hw d (List.mem_cons_of_mem c hd)]; rfl)]

theorem argP_length (s a r : List Char) (h : argP s = some (a, r)) :
    r.length < s.length := by
  cases s with
  | nil => simp [argP] at h
  | cons c rest =>
    rw [argP] at h
    by_cases hc : c = ':'
    · rw [if_pos hc] at h
      simp only [] at h
      split at h
      · exact absurd h (by simp)
      · injection h with h
        injection h with h1 h2
        subst h2
        calc (List.dropWhile isArgChar
                (List.dropWhile isInlineWs rest)).length
            ≤ (List.dropWhile isInlineWs rest).length :=
              length_dropWhile_le' _ _
          _ ≤ rest.length := length_dropWhile_le' _ _
          _ < (c :: rest).length := Nat.lt_succ_self _
    · rw [if_neg hc] at h
      exact absurd h (by simp)

theorem commandP_length (s : List Char) (e : StoryEvent) (r : List Char)
    (h : commandP s = .ev e r) : r.length < s.length := by
  cases s with
  | nil => simp [commandP] at h
  | cons c rest =>
    rw [commandP] at h
    by_cases hc : c = '+'
    · rw [if_pos hc] at h
      split at h
      · exact absurd h (by simp)
      · simp only [] at h
        cases ha : argP ((rest.dropWhile isUpperAZ).dropWhile isInlineWs) with
        | some ar =>
          obtain ⟨a0, r0⟩ := ar
          rw [ha] at h
          obtain ⟨hre, -⟩ := commandAction_rest _ _ _ _ _ h
          subst hre
          have h1 := argP_length _ _ _ ha
          have h2 : ((rest.dropWhile isUpperAZ).dropWhile isInlineWs).length
              ≤ rest.length :=
            Nat.le_trans (length_dropWhile_le' _ _) (length_dropWhile_le' _ _)
          calc r.length < _ := h1
            _ ≤ rest.length := h2
            _ < (c :: rest).length := Nat.lt_succ_self _
        | none =>
          rw [ha] at h
          obtain ⟨hre, -⟩ := commandAction_rest _ _ _ _ _ h
          subst hre
          calc ((rest.dropWhile isUpperAZ).dropWhile isInlineWs).length
              ≤ rest.length :=
              Nat.le_trans (length_dropWhile_le' _ _) (length_dropWhile_le' _ _)
            _ < (c :: rest).length := Nat.lt_succ_self _
    · rw [if_neg hc] at h
      exact absurd h (by simp)

theorem eventP_length (s : List Char) (e : StoryEvent) (r : List Char)
    (h : eventP s = .ok e r) : r.length < s.length := by
  unfold eventP at h
  cases hcp : commandP s with
  | ev e0 r0 =>
    rw [hcp] at h
    injection h with h1 h2
    rw [← h2]
    exact commandP_length s e0 r0 hcp
  | panicked => rw [hcp] at h; exact absurd h (by simp)
  | failed =>
    rw [hcp] at h
    simp only [] at h
    split at h
    · exact absurd h (by simp)
    next htne =>
      injection h with h1 h2
      subst h2
      have hsplit := textChars_split s
      have hlen : s.length = (textChars s).1.length + (textChars s).2.length := by
        conv_lhs => rw [hsplit]
        rw [List.length_append]
      have htpos : 0 < (textChars s).1.length :=
        List.length_pos.mpr htne
      omega

theorem sepP_length (r u : List Char) (h : sepP r = some u) :
    u.length < r.length := by
  cases r with
  | nil => simp [sepP] at h
  | cons c cs =>
    rw [sepP] at h
    by_cases hc : c = '\n'
    · rw [if_pos hc] at h
      injection h with h
      subst h
      exact Nat.lt_succ_of_le (length_dropWhile_le' _ _)
    · rw [if_neg hc] at h
      exact absurd h (by simp)

theorem restEvents_fuel (f : Nat) :
    ∀ (g : Nat) (r : List Char), r.length < f → r.length < g →
      restEvents f r = restEvents g r := by
  induction f using Nat.strong_induction_on with
  | _ f ih =>
    intro g r hf hg
    cases f with
    | zero => omega
    | succ f' =>
      cases g with
      | zero => omega
      | succ g' =>
        simp only [restEvents]
        cases hs : sepP r with
        | none => rfl
        | some u =>
          cases he : eventP u with
          | failed => simp only [he]
          | panicked => simp only [he]
          | ok e2 r2 =>
            have h1 : u.length < r.length := sepP_length r u hs
            have h2 : r2.length < u.length := eventP_length u e2 r2 he
            simp only [he]
            rw [ih f' (Nat.lt_succ_self f') g' r2 (by omega) (by omega)]

theorem restEvents_nil_rest (f : Nat) (r rest : List Char)
    (hf : 0 < f) (h : restEvents f r = .ok [] rest) : rest = r := by
  cases f with
  | zero => omega
  | succ f' =>
    rw [restEvents] at h
    cases hs : sepP r with
    | none =>
      rw [hs] at h
      injection h with h1 h2
      exact h2.symm
    | some u =>
      rw [hs] at h
      cases he : eventP u with
      | failed =>
        simp only [he] at h
        injection h with h1 h2
        exact h2.symm
      | panicked => simp only [he] at h; exact absurd h (by simp)
      | ok e2 r2 =>
        simp only [he] at h
        cases hrr : restEvents f' r2 with
        | ok l2 rest2 => simp only [hrr] at h; simp at h
        | failed => simp only [hrr] at h; exact absurd h (by simp)
        | panicked => simp only [hrr] at h; exact absurd h (by simp)

theorem restEvents_rest_spec (f : Nat) :
    ∀ (r : List Char) (l : List StoryEvent) (rest : List Char),
      r.length < f → restEvents f r = .ok l rest →
      sepP rest = none ∨ ∃ u, sepP rest = some u ∧ eventP u = .failed := by
  induction f using Nat.strong_induction_on with
  | _ f ih =>
    intro r l rest hf h
    cases f with
    | zero => omega
    | succ f' =>
      rw [restEvents] at h
      cases hs : sepP r with
      | none =>
        rw [hs] at h
        injection h with h1 h2
        subst h2
        exact Or.inl hs
      | some u =>
        rw [hs] at h
        cases he : eventP u with
        | failed =>
          simp only [he] at h
          injection h with h1 h2
          subst h2
          exact Or.inr ⟨u, hs, he⟩
        | panicked => simp only [he] at h; exact absurd h (by simp)
        | ok e2 r2 =>
          simp only [he] at h
          cases hrr : restEvents f' r2 with
          | ok l2 rest2 =>
            simp only [hrr] at h
            injection h with h1 h2
            subst h2
            have hlu : u.length < r.length := sepP_length r u hs
            have hlr2 : r2.length < u.length := eventP_length u e2 r2 he
            exact ih f' (Nat.lt_succ_self f') r2 l2 rest2 (by omega) hrr
          | failed => simp only [hrr] at h; exact absurd h (by simp)
          | panicked => simp only [hrr] at h; exact absurd h (by simp)

theorem restEvents_ok_nil (g : Nat) (v : List Char) (hg : 0 < g)
    (h : sepP v = none ∨ sepP v = some []) :
    restEvents g v = .ok [] v := by
  cases g with
  | zero => omega
  | succ g' =>
    rw [restEvents]
    cases h with
    | inl h1 => rw [h1]
    | inr h2 => simp only [h2, eventP_nil]

theorem shape_of (rest : List Char)
    (hwn : ∀ c ∈ rest, wsnlChar c = true)
    (h : sepP rest = none ∨ ∃ u, sepP rest = some u ∧ eventP u = .failed) :
    sepP rest = none ∨ sepP rest = some [] := by
  cases h with
  | inl h1 => exact Or.inl h1
  | inr h2 =>
    obtain ⟨u, hs, he⟩ := h2
    cases rest with
    | nil => simp [sepP] at hs
    | cons c cs =>
      rw [sepP] at hs
      by_cases hc : c = '\n'
      · rw [if_pos hc] at hs
        injection hs with hs
        by_cases hu : u = []
        · subst hu
          exact Or.inr (by rw [sepP, if_pos hc, hs])
        · have huw : ∀ d ∈ u, wsnlChar d = true := by
            intro d hd
            rw [← hs] at hd
            exact hwn d (List.mem_cons_of_mem c (mem_dropWhile _ _ _ hd))
          rw [eventP_wsnl u huw hu] at he
          exact absurd he (by simp)
      · rw [if_neg hc] at hs
        exact absurd hs (by simp)

theorem shape_append (rest w : List Char)
    (hwn : ∀ c ∈ rest, wsnlChar c = true)
    (hw : ∀ c ∈ w, c = '\n')
    (h : sepP rest = none ∨ sepP rest = some []) :
    sepP (rest ++ w) = none ∨ sepP (rest ++ w) = some [] := by
  cases h with
  | inl h1 =>
    cases rest with
    | nil =>
      rw [List.nil_append]
      exact sepP_nl w hw
    | cons c cs =>
      rw [sepP] at h1
      by_cases hc : c = '\n'
      · rw [if_pos hc] at h1
        exact absurd h1 (by simp)
      · rw [if_neg hc] at h1
        exact Or.inl (by rw [List.cons_append, sepP, if_neg hc])
  | inr h2 =>
    cases rest with
    | nil => simp [sepP] at h2
    | cons c cs =>
      rw [sepP] at h2
      by_cases hc : c = '\n'
      · rw [if_pos hc] at h2
        injection h2 with h2
        have hcs : ∀ x ∈ cs, decide (x = '\n') = true :=
          List.dropWhile_eq_nil_iff.mp h2
        refine Or.inr ?_
        rw [List.cons_append, sepP, if_pos hc]
        rw [dropWhile_all _ _ ?_]
        intro d hd
        rcases List.mem_append.mp hd with hdc | hdw
        · exact hcs d hdc
        · rw [hw d hdw]
          rfl
      · rw [if_neg hc] at h2
        exact absurd h2 (by simp)

theorem restEvents_append (f : Nat) :
    ∀ (r : List Char) (l : List StoryEvent) (rest w : List Char) (g : Nat),
      r.length < f → (r ++ w).length < g →
      restEvents f r = .ok l rest →
      (∀ c ∈ rest, wsnlChar c = true) →
      (∀ c ∈ w, c = '\n') →
      (∀ t : List Char, l.getLast? ≠ some (.Text t)) →
      ∃ v, restEvents g (r ++ w) = .ok l v ∧ ∀ c ∈ v, wsnlChar c = true := by
  induction f using Nat.strong_induction_on with
  | _ f ih =>
    intro r l rest w g hf hg hre hrest hw hlast
    have hwsnl_w : ∀ c ∈ w, wsnlChar c = true := by
      intro c hc
      rw [hw c hc]
      rfl
    have hg0 : 0 < g := by omega
    cases f with
    | zero => omega
    | succ f' =>
      rw [restEvents] at hre
      cases hs : sepP r with
      | none =>
        rw [hs] at hre
        injection hre with h1 h2
        subst h1
        subst h2
        refine ⟨r ++ w, ?_, ?_⟩
        · exact restEvents_ok_nil g (r ++ w) hg0
            (shape_append r w hrest hw (Or.inl hs))
        · intro c hc
          rcases List.mem_append.mp hc with hcr | hcw
          · exact hrest c hcr
          · exact hwsnl_w c hcw
      | some u =>
        rw [hs] at hre
        cases he : eventP u with
        | failed =>
          simp only [he] at hre
          injection hre with h1 h2
          subst h1
          subst h2
          refine ⟨r ++ w, ?_, ?_⟩
          · exact restEvents_ok_nil g (r ++ w) hg0
              (shape_append r w hrest hw
                (shape_of r hrest (Or.inr ⟨u, hs, he⟩)))
          · intro c hc
            rcases List.mem_append.mp hc with hcr | hcw
            · exact hrest c hcr
            · exact hwsnl_w c hcw
        | panicked => simp only [he] at hre; exact absurd hre (by simp)
        | ok e2 r2 =>
          simp only [he] at hre
          have hu_ne : u ≠ [] := by
            intro hnil
            subst hnil
            rw [eventP_nil] at he
            exact absurd he (by simp)
          have hlu : u.length < r.length := sepP_length r u hs
          have hlr2 : r2.length < u.length := eventP_length u e2 r2 he
          have hr_ne : r ≠ [] := by
            intro hnil
            subst hnil
            simp [sepP] at hs
          have hr_pos : 0 < r.length := List.length_pos.mpr hr_ne
          have hglen : r.length + w.length < g := by
            simpa [List.length_append] using hg
          cases hrr : restEvents f' r2 with
          | ok l2 rest2 =>
            simp only [hrr] at hre
            injection hre with h1 h2
            subst h1
            subst h2
            have hsep' : sepP (r ++ w) = some (u ++ w) :=
              sepP_append_pos r w u hs hu_ne
            cases g with
            | zero => omega
            | succ g' =>
            cases l2 with
            | nil =>
              have hrest_eq := restEvents_nil_rest f' r2 rest2 (by omega) hrr
              rw [hrest_eq] at hrr hrest
              have hcmd : isCmdEvent e2 := by
                cases e2 with
                | Text t => exact absurd (by simp) (hlast t)
                | Input lab => trivial
                | Pause => trivial
                | Clear => trivial
              by_cases hr2 : r2 = []
              · subst hr2
                have hev' : eventP (u ++ w) = .ok e2 w :=
                  eventP_append_end u w e2 hw he hcmd
                have hnil' := restEvents_ok_nil g' w (by omega) (sepP_nl w hw)
                refine ⟨w, ?_, hwsnl_w⟩
                simp only [restEvents, hsep', hev', hnil']
              · have hev' : eventP (u ++ w) = .ok e2 (r2 ++ w) :=
                  eventP_append_pos u w e2 r2 hw he hr2
                have hspec := restEvents_rest_spec f' r2 [] r2 (by omega) hrr
                have hshape' := shape_append r2 w hrest hw
                  (shape_of r2 hrest hspec)
                have hnil' := restEvents_ok_nil g' (r2 ++ w) (by omega) hshape'
                refine ⟨r2 ++ w, ?_, ?_⟩
                · simp only [restEvents, hsep', hev', hnil']
                · intro c hc
                  rcases List.mem_append.mp hc with hcr | hcw
                  · exact hrest c hcr
                  · exact hwsnl_w c hcw
            | cons x xs =>
              have hr2_ne : r2 ≠ [] := by
                intro hnil
                subst hnil
                cases f' with
                | zero => omega
                | succ f'' =>
                  rw [restEvents] at hrr
                  have hsnil : sepP ([] : List Char) = none := rfl
                  rw [hsnil] at hrr
                  simp at hrr
              have hev' : eventP (u ++ w) = .ok e2 (r2 ++ w) :=
                eventP_append_pos u w e2 r2 hw he hr2_ne
              have hlast' : ∀ t, (x :: xs).getLast? ≠ some (.Text t) := by
                intro t ht
                exact hlast t (by rw [List.getLast?_cons_cons]; exact ht)
              obtain ⟨v, hv1, hv2⟩ :=
                ih f' (Nat.lt_succ_self f') r2 (x :: xs) rest2 w g'
                  (by omega)
                  (by simp only [List.length_append] at hg ⊢; omega)
                  hrr hrest hw hlast'
              refine ⟨v, ?_, hv2⟩
              simp only [restEvents, hsep', hev', hv1]
          | failed => simp only [hrr] at hre; exact absurd hre (by simp)
          | panicked => simp only [hrr] at hre; exact absurd hre (by simp)

theorem restEvents_nil_input (f : Nat) (hf : 0 < f) :
    restEvents f [] = .ok [] [] := by
  cases f with
  | zero => omega
  | succ f' => rfl

theorem trailingP_of_wsnl (v : List Char)
    (hv : ∀ c ∈ v, wsnlChar c = true) : trailingP v = [] := by
  unfold trailingP
  exact dropWhile_all _ _ hv

/-! ### Engine helper lemmas -/

/-- A key event never touches `AppData` (story queue and game store):
every arm of the key-handling block writes only `AppUi` fields. -/
theorem handleKey_data (k : KeyCode) (s s' : App)
    (h : handleKey k s = some s') : s'.data = s.data := by
  unfold handleKey at h
  cases k <;> cases hm : s.ui.input_mode <;> simp [hm] at h <;>
    (subst h; rfl)

/-- One phase step dequeues at most one story event. -/
theorem phaseStep_story_length (now : Nat) (s s1 : App)
    (h : phaseStep now s = some s1) :
    s.data.story.length ≤ s1.data.story.length + 1 ∧
      s1.data.story.length ≤ s.data.story.length := by
  unfold phaseStep at h
  cases hu : s.ui.update <;> rw [hu] at h
  case Update =>
    cases hs : s.data.story <;> rw [hs] at h
    · exact absurd h (by simp)
    case cons e rest =>
      cases e <;> (injection h with h; subst h; simp [hs])
  case Wait =>
    injection h with h
    subst h
    exact ⟨Nat.le_succ _, Nat.le_refl _⟩
  case HandleInput =>
    injection h with h
    subst h
    exact ⟨Nat.le_succ _, Nat.le_refl _⟩
  case Responding =>
    simp only [] at h
    split at h <;> (injection h with h; subst h)
    · exact ⟨Nat.le_succ _, Nat.le_refl _⟩
    · exact ⟨Nat.le_succ _, Nat.le_refl _⟩

/-- A `Responding` phase step while the reveal is still in progress:
the revealed count becomes elapsed-milliseconds divided by the
10 ms per-character duration, and nothing else changes. -/
theorem responding_tick (now : Nat) (s : App)
    (h : s.ui.update = .Responding)
    (hlt : (now - s.ui.response_time) / 10 < byteLen s.ui.current_response) :
    phaseStep now s = some { s with ui := { s.ui with
      response_progress := (now - s.ui.response_time) / 10 } } := by
  unfold phaseStep
  rw [h]
  simp only []
  rw [if_neg (Nat.not_le.mpr hlt)]

/-- A `Responding` phase step once enough wall-clock time has elapsed:
the full text is appended to the output log and the engine returns to
`Update` with the revealed count reset. -/
theorem responding_commit (now : Nat) (s : App)
    (h : s.ui.update = .Responding)
    (hge : byteLen s.ui.current_response ≤ (now - s.ui.response_time) / 10) :
    phaseStep now s = some { s with ui := { s.ui with
      output := s.ui.output ++ [s.ui.current_response]
      current_response := []
      update := .Update
      response_progress := 0 } } := by
  unfold phaseStep
  rw [h]
  simp only []
  rw [if_pos hge]

/-! ### Claim theorems (continued) -/

/-- C4 (confirmed): while revealing a `Text` whose byte length is L
(per-character duration D = 10 ms), the revealed count after any
nonempty sequence of ticks whose elapsed times stay below the full
reveal equals `min L (floor(t / 10))` for the **last** tick time `t`
alone — the number and spacing of earlier ticks is irrelevant, since
each tick recomputes progress from wall-clock elapsed time.  Once
`floor(t / 10) ≥ L`, a single tick commits the full text to the
output log. -/
theorem reveal_is_wall_clock_based :
    (∀ (s : App) (ts : List Nat) (tl : Nat),
      s.ui.update = .Responding →
      (∀ u ∈ ts, s.ui.response_time ≤ u ∧
        (u - s.ui.response_time) / 10 < byteLen s.ui.current_response) →
      ts.getLast? = some tl →
      ∃ s', stepMany ts s = some s' ∧
        s'.ui.response_progress =
          min (byteLen s.ui.current_response)
            ((tl - s.ui.response_time) / 10) ∧
        s'.ui.update = .Responding ∧
        s'.ui.current_response = s.ui.current_response ∧
        s'.ui.response_time = s.ui.response_time ∧
        s'.ui.output = s.ui.output ∧
        s'.data = s.data) ∧
    (∀ (now : Nat) (s : App),
      s.ui.update = .Responding →
      byteLen s.ui.current_response ≤ (now - s.ui.response_time) / 10 →
      ∃ s', phaseStep now s = some s' ∧
        s'.ui.output = s.ui.output ++ [s.ui.current_response] ∧
        s'.ui.response_progress = 0 ∧
        s'.ui.update = .Update) := by
  constructor
  · intro s ts
    induction ts generalizing s with
    | nil => intro tl _ _ hl; exact absurd hl (by simp)
    | cons u ts' ih =>
      intro tl hmode hts hl
      have hu := hts u (List.mem_cons_self u ts')
      have hstep := responding_tick u s hmode hu.2
      cases ts' with
      | nil =>
        have htl : u = tl := by
          simpa using hl
        subst htl
        refine ⟨{ s with ui := { s.ui with
            response_progress := (u - s.ui.response_time) / 10 } },
          ?_, ?_, hmode, rfl, rfl, rfl, rfl⟩
        · simp only [stepMany]
          rw [hstep]
        · exact (min_eq_right (Nat.le_of_lt hu.2)).symm
      | cons v ts'' =>
        have hl' : (v :: ts'').getLast? = some tl := by
          rwa [List.getLast?_cons_cons] at hl
        obtain ⟨s', h1, h2, h3, h4, h5, h6, h7⟩ :=
          ih { s with ui := { s.ui with
              response_progress := (u - s.ui.response_time) / 10 } } tl
            hmode (fun w hw => hts w (List.mem_cons_of_mem _ hw)) hl'
        refine ⟨s', ?_, h2, h3, h4, h5, h6, h7⟩
        simp only [stepMany]
        rw [hstep]
        exact h1
  · intro now s hmode hge
    exact ⟨_, responding_commit now s hmode hge, rfl, rfl, rfl⟩

/-- Witness for C4: from `respondingState` (2-byte text, reveal started
at 0 ms) ticking at 5 ms then 13 ms leaves revealed count
`min 2 (13 / 10) = 1`. -/
theorem reveal_is_wall_clock_based_witness :
    progressAfter [5, 13] respondingState = some 1 := by
  obtain ⟨s', hs, hp, -, -, -, -, -⟩ :=
    reveal_is_wall_clock_based.1 respondingState [5, 13] 13 rfl
      (by decide) rfl
  rw [progressAfter, hs, Option.map_some']
  rw [hp]
  decide

/-- C5 (corrected): dequeuing a `Clear` empties the output log in the
same phase step and leaves the phase at `Update`, so the very next
tick dequeues the following event; and the render of the tick that
processed the `Clear` already shows the emptied log (never stale
output).  But the `run_app` loop renders once per iteration, so that
render does occur and a full tick cycle is consumed between the
`Clear` and the next event. -/
theorem clear_same_tick_semantics (now : Nat) (s : App) (rest : List StoryEvent)
    (h1 : s.ui.update = .Update) (h2 : s.data.story = .Clear :: rest) :
    ∃ s', phaseStep now s = some s' ∧
      s'.ui.output = [] ∧
      s'.ui.update = .Update ∧
      s'.data.story = rest ∧
      s'.ui.current_response = s.ui.current_response ∧
      s'.ui.input = s.ui.input ∧
      s'.data.game_store = s.data.game_store ∧
      (tickFull now none s).1 = some (uiView s') := by
  have hstep : phaseStep now s =
      some { s with data := { s.data with story := rest },
                    ui := { s.ui with output := [] } } := by
    unfold phaseStep
    rw [h1, h2]
  exact ⟨_, hstep, rfl, h1, rfl, rfl, rfl, rfl, by simp [tickFull, hstep]⟩

/-- Witness for C5: stepping `clearState` empties its output log. -/
theorem clear_same_tick_semantics_witness :
    outputAfterStep 3 clearState = some [] := by
  obtain ⟨s', hs, ho, -⟩ :=
    clear_same_tick_semantics 3 clearState [.Text ['x']] rfl rfl
  rw [outputAfterStep, hs, Option.map_some']
  rw [ho]

/-- C9 (confirmed): each loop iteration performs exactly one phase
step, then one render, then handles at most one polled key, in that
order.  Hence the view drawn in a tick is the view of the
post-phase-step state — independent of whichever key arrives in the
same tick — and a tick dequeues at most one story event. -/
theorem tick_orders_step_render_poll :
    ∀ (now : Nat) (k : Option KeyCode) (s : App),
      (tickFull now k s).1 = (phaseStep now s).map uiView ∧
      (tickFull now k s).1 = (tickFull now none s).1 ∧
      ∀ s2, tick now k s = .next s2 →
        s.data.story.length ≤ s2.data.story.length + 1 ∧
        s2.data.story.length ≤ s.data.story.length := by
  intro now k s
  cases hp : phaseStep now s with
  | none =>
    refine ⟨by simp [tickFull, hp], by simp [tickFull, hp], ?_⟩
    intro s2 h
    rw [tick] at h
    simp [tickFull, hp] at h
  | some s1 =>
    have hlen := phaseStep_story_length now s s1 hp
    cases k with
    | none =>
      refine ⟨by simp [tickFull, hp], rfl, ?_⟩
      intro s2 h
      rw [tick] at h
      simp only [tickFull, hp] at h
      have h' : s1 = s2 := by
        injection h
      subst h'
      exact hlen
    | some kc =>
      refine ⟨?_, ?_, ?_⟩
      · simp only [tickFull, hp]
        cases handleKey kc s1 <;> rfl
      · simp only [tickFull, hp]
        cases handleKey kc s1 <;> rfl
      · intro s2 h
        rw [tick] at h
        cases hk : handleKey kc s1 with
        | none => simp [tickFull, hp, hk] at h
        | some s2' =>
          simp only [tickFull, hp, hk] at h
          have h' : s2' = s2 := by
            injection h
          subst h'
          have hd := handleKey_data kc s1 s2' hk
          rw [hd]
          exact hlen

/-- Witness for C9: from `initApp [Pause] 0` with an Enter key polled,
the render equals the post-step view, is key-independent, and the tick
dequeued exactly the one `Pause` event. -/
theorem tick_orders_step_render_poll_witness :
    (tickFull 0 (some .enter) (initApp [.Pause] 0)).1 =
        (phaseStep 0 (initApp [.Pause] 0)).map uiView ∧
    (tickFull 0 (some .enter) (initApp [.Pause] 0)).1 =
        (tickFull 0 none (initApp [.Pause] 0)).1 ∧
    (initApp [.Pause] 0).data.story.length ≤
        pauseTicked.data.story.length + 1 ∧
    pauseTicked.data.story.length ≤ (initApp [.Pause] 0).data.story.length :=
  ⟨(tick_orders_step_render_poll 0 (some .enter) (initApp [.Pause] 0)).1,
   (tick_orders_step_render_poll 0 (some .enter) (initApp [.Pause] 0)).2.1,
   ((tick_orders_step_render_poll 0 (some .enter) (initApp [.Pause] 0)).2.2
      pauseTicked rfl).1,
   ((tick_orders_step_render_poll 0 (some .enter) (initApp [.Pause] 0)).2.2
      pauseTicked rfl).2⟩

/-- C8 counterexample: appending trailing whitespace or newlines does
change the parsed sequence.  `parse("Hi")` is `[Text("Hi")]` but
`parse("Hi" ++ "\n")` is `[Text("Hi\n")]` — the text rule absorbs a
trailing newline not followed by `+` — and
`parse("+PAUSE" ++ "\n ")` is `[Pause, Text(" ")]` — a trailing
newline-plus-space is parsed as a separator and a new whitespace text
event. -/
theorem trailing_chars_change_parse_cex :
    story "Hi".toList = .ok [.Text "Hi".toList] ∧
    story ("Hi".toList ++ "\n".toList) = .ok [.Text "Hi\n".toList] ∧
    (StoryEvent.Text "Hi\n".toList) ≠ .Text "Hi".toList ∧
    story "+PAUSE".toList = .ok [.Pause] ∧
    story ("+PAUSE".toList ++ "\n ".toList) =
      .ok [.Pause, .Text " ".toList] := by
  exact ⟨rfl, rfl, by decide, rfl, rfl⟩

/-- C8 (corrected): `parse("")` is the empty sequence, and appending
trailing newlines is harmless only after a final **command** event: if
`d` parses to a nonempty sequence whose last event is `Pause`, `Clear`
or `Input` (not `Text`) and `w` consists only of newlines, then
`parse(d ++ w) = parse(d)`.  Trailing inline whitespace, or trailing
characters after a final `Text` event, are not ignored in general (see
the counterexample). -/
theorem trailing_newlines_after_command :
    story ([] : List Char) = .ok [] ∧
    ∀ (d w : List Char) (l : List StoryEvent),
      story d = .ok l →
      (∃ e, l.getLast? = some e ∧ isCmdEvent e) →
      (∀ c ∈ w, c = '\n') →
      story (d ++ w) = .ok l := by
  refine ⟨rfl, ?_⟩
  intro d w l hd hlaste hw
  obtain ⟨eL, hgl, hcmdL⟩ := hlaste
  have hlast : ∀ t : List Char, l.getLast? ≠ some (.Text t) := by
    intro t ht
    rw [hgl] at ht
    injection ht with ht
    rw [ht] at hcmdL
    exact hcmdL
  unfold story at hd
  cases hev : eventsP d with
  | ok l0 rest =>
    simp only [hev] at hd
    split at hd
    next htr =>
      injection hd with hd0
      subst hd0
      have hrest : ∀ c ∈ rest, wsnlChar c = true := by
        intro c hc
        exact List.dropWhile_eq_nil_iff.mp htr c hc
      unfold eventsP at hev
      cases hevP : eventP d with
      | failed =>
        rw [hevP] at hev
        injection hev with h1 h2
        rw [← h1] at hgl
        simp at hgl
      | panicked => rw [hevP] at hev; exact absurd hev (by simp)
      | ok e r0 =>
        rw [hevP] at hev
        have hdne : d ≠ [] := by
          intro h0
          subst h0
          rw [eventP_nil] at hevP
          exact absurd hevP (by simp)
        have hdpos : 0 < d.length := List.length_pos.mpr hdne
        have hr0len : r0.length < d.length := eventP_length d e r0 hevP
        cases hrr : restEvents d.length r0 with
        | ok l2 rest2 =>
          simp only [hrr] at hev
          injection hev with h1 h2
          subst h1
          rw [← h2] at hrest
          cases l2 with
          | nil =>
            have hr_eq := restEvents_nil_rest d.length r0 rest2 (by omega) hrr
            rw [hr_eq] at hrr hrest
            simp at hgl
            have hcmd : isCmdEvent e := by
              rw [← hgl] at hcmdL
              exact hcmdL
            by_cases hr0 : r0 = []
            · subst hr0
              have hev' : eventP (d ++ w) = .ok e w :=
                eventP_append_end d w e hw hevP hcmd
              have hnil' := restEvents_ok_nil (d ++ w).length w
                (by simp [List.length_append]; omega) (sepP_nl w hw)
              have htw : trailingP w = [] := trailingP_of_wsnl w
                (fun c hc => by rw [hw c hc]; rfl)
              simp only [story, eventsP, hev', hnil', htw]
              simp
            · have hev' := eventP_append_pos d w e r0 hw hevP hr0
              have hspec := restEvents_rest_spec d.length r0 [] r0
                (by omega) hrr
              have hshape' := shape_append r0 w hrest hw
                (shape_of r0 hrest hspec)
              have hnil' := restEvents_ok_nil (d ++ w).length (r0 ++ w)
                (by simp [List.length_append]; omega) hshape'
              have htw : trailingP (r0 ++ w) = [] := trailingP_of_wsnl _
                (fun c hc => by
                  rcases List.mem_append.mp hc with hcr | hcw
                  · exact hrest c hcr
                  · rw [hw c hcw]; rfl)
              simp only [story, eventsP, hev', hnil', htw]
              simp
          | cons x xs =>
            have hr0ne : r0 ≠ [] := by
              intro h0
              subst h0
              rw [restEvents_nil_input d.length (by omega)] at hrr
              simp at hrr
            have hev' := eventP_append_pos d w e r0 hw hevP hr0ne
            have hlast2 : ∀ t, (x :: xs).getLast? ≠ some (.Text t) := by
              intro t ht
              exact hlast t (by rw [List.getLast?_cons_cons]; exact ht)
            obtain ⟨v, hv1, hv2⟩ :=
              restEvents_append d.length r0 (x :: xs) rest2 w (d ++ w).length
                (by omega)
                (by simp only [List.length_append]; omega)
                hrr hrest hw hlast2
            have htw : trailingP v = [] := trailingP_of_wsnl v hv2
            simp only [story, eventsP, hev', hv1, htw]
            simp
        | failed => simp only [hrr] at hev; exact absurd hev (by simp)
        | panicked => simp only [hrr] at hev; exact absurd hev (by simp)
    next htr => exact absurd hd (by simp)
  | failed => rw [hev] at hd; exact absurd hd (by simp)
  | panicked => rw [hev] at hd; exact absurd hd (by simp)

/-- Witness for C8: `parse("+PAUSE" ++ "\n\n") = [Pause]`. -/
theorem trailing_newlines_after_command_witness :
    story ("+PAUSE".toList ++ "\n\n".toList) = .ok [.Pause] :=
  trailing_newlines_after_command.2 "+PAUSE".toList "\n\n".toList [.Pause]
    rfl ⟨.Pause, rfl, trivial⟩ (by decide)

end TextAdventure
